import Mathlib

/-!
Verification of the generic frame-assembly engine of
`src/stirling/common/event_parser.h` (namespace `pl::stirling`):
the `PositionConverter` (stream-offset → fragment-position translation)
and the `EventParser` (fragment accumulation, parse cycle, timestamp
attribution).

The embedding is shallow: byte buffers are `List Nat`, the per-protocol
template functions `FindFrameBoundary` / `ParseFrames` are packaged as a
`Protocol` record of pure functions, and the mutating C++ methods become
state-passing Lean functions.
-/

namespace stirling

/-- A raw byte buffer (`std::string_view` content), one byte per element. -/
abbrev Frag := List Nat

/-- Modelled from the spec: request/response direction selector
(`MessageType` lives in `bcc_bpf_interface/common.h`, outside `src/`). -/
inductive MessageType
  | kRequest
  | kResponse
deriving DecidableEq, Repr

/-- Modelled from the spec: terminal parse status
(`ParseState` lives in `common/parse_state.h`, outside `src/`); the spec
lists success / needs-more-data / invalid-data / unknown, and the code's
default member initializer is `kInvalid`. -/
inductive ParseState
  | kUnknown
  | kInvalid
  | kNeedsMoreData
  | kSuccess
deriving DecidableEq, Repr

/-- `BufferPosition`: position in a set of disjoint buffers
(fragment sequence number and offset within that fragment). -/
structure BufferPosition where
  seq_num : Nat
  offset : Nat
deriving DecidableEq, Repr

/-- `ParseResult<PositionType>`: frame start positions, end-of-consumption
position, and the state of the last attempted frame parse. -/
structure ParseResult (PositionType : Type) where
  start_positions : List PositionType
  end_position : PositionType
  state : ParseState
deriving DecidableEq, Repr

/-- Total byte length of a list of fragments. -/
def sumLens (msgs : List Frag) : Nat := (msgs.map List.length).sum

/-- Byte length of the first `n` fragments: the stream offset at which
fragment `n` begins. -/
def sumTake (msgs : List Frag) (n : Nat) : Nat := sumLens (msgs.take n)

/-- State of `PositionConverter`: the forward-only cursor
(`curr_seq_`, `size_`) plus the last queried position recorded for the
defensive monotonicity check. -/
structure PositionConverter where
  curr_seq_ : Nat
  size_ : Nat
  last_query_pos_ : Nat
deriving DecidableEq, Repr

/-- `PositionConverter::Reset()`: zeroes `curr_seq_` and `size_`
(and nothing else). -/
def PositionConverter.Reset (c : PositionConverter) : PositionConverter :=
  { c with curr_seq_ := 0, size_ := 0 }

/-- A freshly constructed `PositionConverter` (default member initializers
are all zero and the constructor calls `Reset()`). -/
def PositionConverter.init : PositionConverter := ⟨0, 0, 0⟩

/-- The defensive check at the top of `PositionConverter::Convert`:
`DCHECK_GE(pos, last_query_pos_)`.  `true` means the check passes. -/
def PositionConverter.ConvertDcheck (c : PositionConverter) (pos : Nat) : Bool :=
  decide (c.last_query_pos_ ≤ pos)

/-- The `while (curr_seq_ < msgs.size())` loop body of
`PositionConverter::Convert`, recursing over the fragments not yet passed
by the cursor.  Arguments: remaining fragments, current `curr_seq_`,
current `size_`.  Returns the produced `BufferPosition` together with the
final `curr_seq_` and `size_`. -/
def convertGo (pos : Nat) : List Frag → Nat → Nat → BufferPosition × Nat × Nat
  | [], curr, sz => (⟨curr, 0⟩, curr, sz)
  | msg :: rest, curr, sz =>
    if pos < sz + msg.length then (⟨curr, pos - sz⟩, curr, sz)
    else convertGo pos rest (curr + 1) (sz + msg.length)

/-- `PositionConverter::Convert(msgs, pos)`: records `pos` in
`last_query_pos_`, then advances the cursor fragment by fragment until the
queried offset falls strictly inside the current fragment's span, returning
`(curr_seq_, pos - size_)`; if the cursor exhausts all fragments, returns
`(msgs.size(), 0)`.  Returns the `BufferPosition` and the updated
converter. -/
def PositionConverter.Convert (c : PositionConverter) (msgs : List Frag) (pos : Nat) :
    BufferPosition × PositionConverter :=
  let r := convertGo pos (msgs.drop c.curr_seq_) c.curr_seq_ c.size_
  (r.1, ⟨r.2.1, r.2.2, pos⟩)

/-- Modelled from the spec: the timestamp attribute of a `SocketDataEvent`
(its `attr` struct lives outside `src/`); only `return_timestamp_ns` is
read by this core. -/
structure SocketDataEventAttr where
  return_timestamp_ns : Nat
deriving DecidableEq, Repr

/-- Modelled from the spec: a captured syscall payload (`SocketDataEvent`,
declared in `common/socket_trace.h` outside `src/`): raw byte content plus
a capture timestamp. -/
structure SocketDataEvent where
  attr : SocketDataEventAttr
  msg : Frag
deriving DecidableEq, Repr

/-- A decoded protocol frame (the `TFrameType` template parameter):
protocol-specific payload `data` plus the `timestamp_ns` field the
assembler assigns. -/
structure Frame (α : Type) where
  data : α
  timestamp_ns : Nat
deriving DecidableEq, Repr

/-- The per-protocol template functions consumed by `EventParser`:
`FindFrameBoundary` (returning `none` for `std::string::npos`) and the
free function `stirling::ParseFrames` over a contiguous buffer, which
receives the caller's frame container and returns the updated container
together with a `ParseResult<size_t>`. -/
structure Protocol (α : Type) where
  FindFrameBoundary : MessageType → Frag → Nat → Option Nat
  ParseFrames : MessageType → Frag → List (Frame α) → List (Frame α) × ParseResult Nat

/-- State of `EventParser<TFrameType>`: the accumulated fragment views,
their timestamps, and the cached total byte size. -/
structure EventParser where
  ts_nses_ : List Nat
  msgs_ : List Frag
  msgs_size_ : Nat
deriving DecidableEq, Repr

/-- A default-constructed `EventParser` (empty accumulation). -/
def EventParser.init : EventParser := ⟨[], [], 0⟩

/-- `EventParser::Append(event)`: pushes the fragment content and its
timestamp and adds the fragment's size to `msgs_size_`. -/
def EventParser.Append (p : EventParser) (event : SocketDataEvent) : EventParser :=
  { p with msgs_ := p.msgs_ ++ [event.msg],
           ts_nses_ := p.ts_nses_ ++ [event.attr.return_timestamp_ns],
           msgs_size_ := p.msgs_size_ + event.msg.length }

/-- `EventParser::Combine()`: concatenates all accumulated fragments into
one contiguous buffer by successive `append`. -/
def EventParser.Combine (p : EventParser) : Frag :=
  p.msgs_.foldl (fun result msg => result ++ msg) []

/-- The `start_pos` computation at the top of `EventParser::ParseFrames`:
`0` unless `resync` is set, in which case `FindFrameBoundary` is invoked
from position `1`, falling back to `0` when it reports not-found. -/
def resolveStartPos (P : Protocol α) (type : MessageType) (buf : Frag) (resync : Bool) : Nat :=
  if resync then
    match P.FindFrameBoundary type buf 1 with
    | some b => b
    | none => 0
  else 0

/-- The assignment `(*frames)[n].timestamp_ns = ts`: updates the
`timestamp_ns` field of the frame at index `n`, leaving every other frame
untouched (no-op when `n` is out of range). -/
def setTimestamp (ts : Nat) : Nat → List (Frame α) → List (Frame α)
  | _, [] => []
  | 0, f :: rest => { f with timestamp_ns := ts } :: rest
  | n + 1, f :: rest => f :: setTimestamp ts n rest

/-- The `for (i = 0; i < result.start_positions.size(); ++i)` loop of
`EventParser::ParseFrames`: converts each `start_pos + start_positions[i]`
through the shared `PositionConverter`, collects the resulting
`BufferPosition`s, and stamps frame `prev_size + i` with the timestamp of
the fragment the position falls in.  Returns the collected positions, the
updated frames, and the converter state left for the end-position
conversion. -/
def stampFrames (msgs : List Frag) (ts_nses : List Nat) (prev_size start_pos : Nat) :
    List Nat → Nat → PositionConverter → List (Frame α) →
    List BufferPosition × List (Frame α) × PositionConverter
  | [], _, conv, frames => ([], frames, conv)
  | sp :: rest, i, conv, frames =>
    let pc := conv.Convert msgs (start_pos + sp)
    let frames1 := setTimestamp (ts_nses.getD pc.1.seq_num 0) (prev_size + i) frames
    let r := stampFrames msgs ts_nses prev_size start_pos rest (i + 1) pc.2 frames1
    (pc.1 :: r.1, r.2.1, r.2.2)

/-- `EventParser::ParseFrames(type, frames, resync)`: combines the
accumulated fragments, resolves the resync start position, runs the
per-protocol `ParseFrames` on the buffer with the first `start_pos` bytes
removed, converts frame start positions and the end position to
`BufferPosition`s while stamping timestamps, and clears all accumulated
state.  Returns the `ParseResult<BufferPosition>`, the updated frame
container, and the cleared parser. -/
def EventParser.ParseFrames (p : EventParser) (P : Protocol α) (type : MessageType)
    (frames : List (Frame α)) (resync : Bool) :
    ParseResult BufferPosition × List (Frame α) × EventParser :=
  let buf := p.Combine
  let start_pos := resolveStartPos P type buf resync
  let prev_size := frames.length
  let buf_view := buf.drop start_pos
  let pr := P.ParseFrames type buf_view frames
  let result := pr.2
  let st := stampFrames p.msgs_ p.ts_nses_ prev_size start_pos
    result.start_positions 0 PositionConverter.init pr.1
  let end_position := (st.2.2.Convert p.msgs_ (start_pos + result.end_position)).1
  (⟨st.1, end_position, result.state⟩, st.2.1, EventParser.init)

/-- Issues a batch of `Convert` queries against one shared converter, in
order, returning the produced `BufferPosition`s and the final converter
state. -/
def runQueriesAux (msgs : List Frag) (c : PositionConverter) :
    List Nat → List BufferPosition × PositionConverter
  | [] => ([], c)
  | q :: qs =>
    let r := c.Convert msgs q
    let rest := runQueriesAux msgs r.2 qs
    (r.1 :: rest.1, rest.2)

/-- Runs a batch of `Convert` queries against one shared converter and
reports whether every query passed the defensive `DCHECK_GE` monotonicity
check. -/
def runQueriesDchecksOk (msgs : List Frag) (c : PositionConverter) : List Nat → Bool
  | [] => true
  | q :: qs => c.ConvertDcheck q && runQueriesDchecksOk msgs (c.Convert msgs q).2 qs

/-- Builds an `EventParser` by `Append`-ing a list of events to a freshly
constructed (or just-cleared) parser. -/
def appendAll (evs : List SocketDataEvent) : EventParser :=
  evs.foldl (fun p e => p.Append e) EventParser.init

/-- A sample captured event used by concrete witnesses. -/
def sampleEvent1 : SocketDataEvent := ⟨⟨100⟩, [1, 2, 3]⟩

/-- A protocol whose boundary search always reports not-found and whose
decoder appends one frame covering the whole buffer. -/
def noBoundaryProto : Protocol Nat :=
  ⟨fun _ _ _ => none,
    fun _ bf fs => (fs ++ [⟨1, 0⟩], ⟨[0], bf.length, ParseState.kSuccess⟩)⟩

/-- The two-fragment parser state of the spec's timestamp-attribution
example: 10 bytes captured at ts=100 followed by 10 bytes at ts=200. -/
def exampleParser2 : EventParser :=
  (EventParser.init.Append ⟨⟨100⟩, [0, 0, 0, 0, 0, 0, 0, 0, 0, 0]⟩).Append
    ⟨⟨200⟩, [1, 1, 1, 1, 1, 1, 1, 1, 1, 1]⟩

/-- A protocol whose decoder appends one frame and reports its start at
stream offset 12. -/
def exampleProto12 : Protocol Nat :=
  ⟨fun _ _ _ => none,
    fun _ bf fs => (fs ++ [⟨0, 0⟩], ⟨[12], bf.length, ParseState.kSuccess⟩)⟩

/-- Cursor-state invariant of `PositionConverter`: `curr_seq_` is a valid
fragment index bound, `size_` is the total length of the fragments before
the cursor, and `size_` never exceeds the last queried position. -/
def ConvStateOk (msgs : List Frag) (c : PositionConverter) : Prop :=
  c.curr_seq_ ≤ msgs.length ∧ c.size_ = sumTake msgs c.curr_seq_ ∧
    c.size_ ≤ c.last_query_pos_

/-! ## Arithmetic helper lemmas -/

theorem sumLens_nil : sumLens [] = 0 := rfl

theorem sumLens_cons (m : Frag) (rest : List Frag) :
    sumLens (m :: rest) = m.length + sumLens rest := by
  simp [sumLens]

theorem sumLens_append (a b : List Frag) :
    sumLens (a ++ b) = sumLens a + sumLens b := by
  simp [sumLens]

theorem sumTake_add (msgs : List Frag) (curr j : Nat) :
    sumTake msgs (curr + j) = sumTake msgs curr + sumTake (msgs.drop curr) j := by
  induction msgs generalizing curr with
  | nil => simp [sumTake, sumLens]
  | cons m rest ih =>
    cases curr with
    | zero => simp [sumTake, sumLens]
    | succ c =>
      have h : c + 1 + j = (c + j) + 1 := by omega
      simp only [h, sumTake, List.take_succ_cons, List.drop_succ_cons,
        sumLens_cons]
      have := ih c
      simp only [sumTake] at this
      omega

theorem getD_drop (msgs : List Frag) (curr j : Nat) :
    (msgs.drop curr).getD j [] = msgs.getD (curr + j) [] := by
  induction msgs generalizing curr with
  | nil => simp
  | cons m rest ih =>
    cases curr with
    | zero => simp
    | succ c =>
      have h : c + 1 + j = (c + j) + 1 := by omega
      simp only [h, List.drop_succ_cons, List.getD_cons_succ]
      exact ih c

theorem sumLens_take_drop (msgs : List Frag) (curr : Nat) :
    sumTake msgs curr + sumLens (msgs.drop curr) = sumLens msgs := by
  have h := List.take_append_drop curr msgs
  calc sumTake msgs curr + sumLens (msgs.drop curr)
      = sumLens (msgs.take curr ++ msgs.drop curr) := (sumLens_append _ _).symm
    _ = sumLens msgs := by rw [h]

/-! ## `convertGo` characterization -/

theorem convertGo_ge (rest : List Frag) (curr sz pos : Nat)
    (h : sz + sumLens rest ≤ pos) :
    convertGo pos rest curr sz =
      (⟨curr + rest.length, 0⟩, curr + rest.length, sz + sumLens rest) := by
  induction rest generalizing curr sz with
  | nil => simp [convertGo, sumLens]
  | cons m rest ih =>
    rw [sumLens_cons] at h
    have hnot : ¬ pos < sz + m.length := by omega
    simp only [convertGo, hnot, if_false]
    rw [ih (curr + 1) (sz + m.length) (by omega)]
    simp only [List.length_cons, sumLens_cons, Prod.mk.injEq,
      BufferPosition.mk.injEq]
    refine ⟨⟨by omega, trivial⟩, by omega, by omega⟩

theorem convertGo_lt (rest : List Frag) (curr sz pos : Nat)
    (hsz : sz ≤ pos) (hlt : pos < sz + sumLens rest) :
    ∃ j, j < rest.length ∧
      sz + sumLens (rest.take j) ≤ pos ∧
      pos < sz + sumLens (rest.take j) + (rest.getD j []).length ∧
      convertGo pos rest curr sz =
        (⟨curr + j, pos - (sz + sumLens (rest.take j))⟩,
          curr + j, sz + sumLens (rest.take j)) := by
  induction rest generalizing curr sz with
  | nil =>
    exfalso
    rw [sumLens_nil] at hlt
    omega
  | cons m rest ih =>
    by_cases hm : pos < sz + m.length
    · refine ⟨0, by simp, by simpa [sumLens_nil] using hsz,
        by simpa [sumLens_nil] using hm, ?_⟩
      simp [convertGo, hm, sumLens_nil]
    · rw [sumLens_cons] at hlt
      obtain ⟨j, hj, hle, hlt2, heq⟩ :=
        ih (curr + 1) (sz + m.length) (by omega) (by omega)
      refine ⟨j + 1, by simpa using hj, ?_, ?_, ?_⟩
      · simpa [sumLens_cons] using by omega
      · simp only [List.take_succ_cons, sumLens_cons, List.getD_cons_succ]
        omega
      · simp only [convertGo, hm, if_false]
        rw [heq]
        simp only [List.take_succ_cons, sumLens_cons, Prod.mk.injEq,
          BufferPosition.mk.injEq]
        refine ⟨⟨by omega, by omega⟩, by omega, by omega⟩

/-! ## `PositionConverter.Convert` correctness -/

theorem Convert_eq (c : PositionConverter) (msgs : List Frag) (pos : Nat) :
    c.Convert msgs pos =
      ((convertGo pos (msgs.drop c.curr_seq_) c.curr_seq_ c.size_).1,
        ⟨(convertGo pos (msgs.drop c.curr_seq_) c.curr_seq_ c.size_).2.1,
          (convertGo pos (msgs.drop c.curr_seq_) c.curr_seq_ c.size_).2.2,
          pos⟩) := rfl

theorem ConvStateOk_init (msgs : List Frag) :
    ConvStateOk msgs PositionConverter.init :=
  ⟨Nat.zero_le _, rfl, Nat.le_refl 0⟩

theorem Convert_last (c : PositionConverter) (msgs : List Frag) (pos : Nat) :
    (c.Convert msgs pos).2.last_query_pos_ = pos := rfl

theorem Convert_lt (msgs : List Frag) (c : PositionConverter) (pos : Nat)
    (hok : ConvStateOk msgs c) (hmono : c.last_query_pos_ ≤ pos)
    (hlt : pos < sumLens msgs) :
    sumTake msgs (c.Convert msgs pos).1.seq_num + (c.Convert msgs pos).1.offset
        = pos ∧
      (c.Convert msgs pos).1.seq_num < msgs.length ∧
      (c.Convert msgs pos).1.offset
        < (msgs.getD (c.Convert msgs pos).1.seq_num []).length ∧
      ConvStateOk msgs (c.Convert msgs pos).2 := by
  obtain ⟨hc, hsz, hle⟩ := hok
  have hszpos : c.size_ ≤ pos := le_trans hle hmono
  have hsum : c.size_ + sumLens (msgs.drop c.curr_seq_) = sumLens msgs := by
    rw [hsz]
    exact sumLens_take_drop msgs c.curr_seq_
  have hlt2 : pos < c.size_ + sumLens (msgs.drop c.curr_seq_) := by
    rw [hsum]
    exact hlt
  obtain ⟨j, hj, hjle, hjlt, heq⟩ :=
    convertGo_lt (msgs.drop c.curr_seq_) c.curr_seq_ c.size_ pos hszpos hlt2
  have htake : c.size_ + sumLens ((msgs.drop c.curr_seq_).take j)
      = sumTake msgs (c.curr_seq_ + j) := by
    rw [sumTake_add msgs c.curr_seq_ j, hsz]
    rfl
  have hgetD : (msgs.drop c.curr_seq_).getD j [] = msgs.getD (c.curr_seq_ + j) [] :=
    getD_drop msgs c.curr_seq_ j
  have hlen : (msgs.drop c.curr_seq_).length = msgs.length - c.curr_seq_ := by
    simp
  have hseq : c.curr_seq_ + j < msgs.length := by omega
  rw [Convert_eq, heq]
  dsimp only
  refine ⟨?_, ?_, ?_, ?_, ?_, ?_⟩
  · rw [← htake]
    omega
  · exact hseq
  · rw [← hgetD]
    omega
  · exact hseq.le
  · exact htake
  · exact hjle

theorem Convert_ge (msgs : List Frag) (c : PositionConverter) (pos : Nat)
    (hok : ConvStateOk msgs c) (hge : sumLens msgs ≤ pos) :
    (c.Convert msgs pos).1 = ⟨msgs.length, 0⟩ ∧
      ConvStateOk msgs (c.Convert msgs pos).2 := by
  obtain ⟨hc, hsz, hle⟩ := hok
  have hsum : c.size_ + sumLens (msgs.drop c.curr_seq_) = sumLens msgs := by
    rw [hsz]
    exact sumLens_take_drop msgs c.curr_seq_
  have heq := convertGo_ge (msgs.drop c.curr_seq_) c.curr_seq_ c.size_ pos
    (by omega)
  have hlen : (msgs.drop c.curr_seq_).length = msgs.length - c.curr_seq_ := by
    simp
  have hfull : c.curr_seq_ + (msgs.drop c.curr_seq_).length = msgs.length := by
    omega
  rw [Convert_eq, heq]
  dsimp only
  rw [hfull]
  refine ⟨rfl, le_refl _, ?_, ?_⟩
  · rw [hsum]
    simp only [sumTake, List.take_length]
  · show c.size_ + sumLens (msgs.drop c.curr_seq_) ≤ pos
    omega

theorem runQueriesAux_forall₂ (msgs : List Frag) :
    ∀ (qs : List Nat) (c : PositionConverter), ConvStateOk msgs c →
      List.Chain (· ≤ ·) c.last_query_pos_ qs →
      (∀ q ∈ qs, q < sumLens msgs) →
      List.Forall₂
        (fun bp q => sumTake msgs bp.seq_num + bp.offset = q ∧
          bp.seq_num < msgs.length)
        (runQueriesAux msgs c qs).1 qs
  | [], _, _, _, _ => List.Forall₂.nil
  | q :: qs, c, hok, hchain, hbound => by
    cases hchain with
    | cons hq hchain =>
      obtain ⟨h1, h2, _, hok2⟩ :=
        Convert_lt msgs c q hok hq (hbound q (by simp))
      have hrec := runQueriesAux_forall₂ msgs qs (c.Convert msgs q).2 hok2
        (by rw [Convert_last]; exact hchain)
        (fun x hx => hbound x (by simp [hx]))
      simpa [runQueriesAux] using List.Forall₂.cons ⟨h1, h2⟩ hrec

theorem runQueriesDchecksOk_iff (msgs : List Frag) :
    ∀ (qs : List Nat) (c : PositionConverter),
      runQueriesDchecksOk msgs c qs = true
        ↔ List.Chain (· ≤ ·) c.last_query_pos_ qs
  | [], c => by
    simp only [runQueriesDchecksOk]
    exact iff_of_true trivial List.Chain.nil
  | q :: qs, c => by
    simp only [runQueriesDchecksOk, Bool.and_eq_true,
      PositionConverter.ConvertDcheck, decide_eq_true_eq]
    rw [runQueriesDchecksOk_iff msgs qs (c.Convert msgs q).2, Convert_last]
    constructor
    · rintro ⟨h1, h2⟩
      exact List.Chain.cons h1 h2
    · intro h
      cases h with
      | cons h1 h2 => exact ⟨h1, h2⟩

theorem chain_zero_iff_chain' {qs : List Nat} :
    List.Chain (· ≤ ·) 0 qs ↔ List.Chain' (· ≤ ·) qs := by
  constructor
  · intro h
    cases h with
    | nil => exact List.chain'_nil
    | cons h1 h2 => exact h2
  · intro h
    cases qs with
    | nil => exact List.Chain.nil
    | cons q qs => exact List.Chain.cons (Nat.zero_le q) h

theorem runQueriesAux_last (msgs : List Frag) :
    ∀ (qs : List Nat) (c : PositionConverter) (q : Nat),
      (runQueriesAux msgs c (qs ++ [q])).2.last_query_pos_ = q
  | [], c, q => rfl
  | x :: qs, c, q => by
    simpa [runQueriesAux] using
      runQueriesAux_last msgs qs (c.Convert msgs x).2 q

theorem chain_zero_of_chain' {qs : List Nat} (h : List.Chain' (· ≤ ·) qs) :
    List.Chain (· ≤ ·) 0 qs := by
  cases qs with
  | nil => exact List.Chain.nil
  | cons q qs => exact List.Chain.cons (Nat.zero_le q) h

/-- C1: for every list of fragments and every non-decreasing sequence of
query offsets, each strictly below the total length, converting each offset
in order through one shared `PositionConverter` yields
(index, within-offset) pairs whose reconstructed cumulative offset
`sumTake msgs index + within-offset` equals the queried offset. -/
theorem position_translation_correct (msgs : List Frag) (qs : List Nat)
    (hmono : List.Chain' (· ≤ ·) qs)
    (hbound : ∀ q ∈ qs, q < sumLens msgs) :
    List.Forall₂
      (fun bp q => sumTake msgs bp.seq_num + bp.offset = q ∧
        bp.seq_num < msgs.length)
      (runQueriesAux msgs PositionConverter.init qs).1 qs :=
  runQueriesAux_forall₂ msgs qs PositionConverter.init (ConvStateOk_init msgs)
    (chain_zero_of_chain' hmono) hbound

theorem position_translation_correct_witness :
    List.Chain' (· ≤ ·) [0, 2, 3, 5] ∧
      (∀ q ∈ [0, 2, 3, 5], q < sumLens [[7, 7], [8], [9, 9, 9]]) ∧
      List.Forall₂
        (fun bp q =>
          sumTake [[7, 7], [8], [9, 9, 9]] bp.seq_num + bp.offset = q ∧
            bp.seq_num < [[7, 7], [8], [9, 9, 9]].length)
        (runQueriesAux [[7, 7], [8], [9, 9, 9]] PositionConverter.init
          [0, 2, 3, 5]).1 [0, 2, 3, 5] :=
  ⟨by simp [List.chain'_cons], by decide,
    position_translation_correct [[7, 7], [8], [9, 9, 9]] [0, 2, 3, 5]
      (by simp [List.chain'_cons]) (by decide)⟩

/-- C5: converting an offset at or past the total length of all fragments
returns the end-of-stream sentinel `(fragment count, 0)`. -/
theorem convert_end_sentinel (msgs : List Frag) (pos : Nat)
    (h : sumLens msgs ≤ pos) :
    (PositionConverter.init.Convert msgs pos).1 = ⟨msgs.length, 0⟩ :=
  (Convert_ge msgs PositionConverter.init pos (ConvStateOk_init msgs) h).1

theorem convert_end_sentinel_witness :
    sumLens [[1, 2], [3]] ≤ 7 ∧
      (PositionConverter.init.Convert [[1, 2], [3]] 7).1
        = ⟨[[1, 2], [3]].length, 0⟩ :=
  ⟨by decide, convert_end_sentinel [[1, 2], [3]] 7 (by decide)⟩

/-- C6: issuing offsets 5 then 3 on a fresh converter fails the defensive
`DCHECK_GE(pos, last_query_pos_)` check, while a batch of queries on a
fresh converter passes every check exactly when it is non-decreasing (so
any query strictly smaller than an earlier one triggers the check
somewhere, and a non-decreasing batch never does). -/
theorem monotonic_query_contract :
    (∀ msgs : List Frag,
      (PositionConverter.init.Convert msgs 5).2.ConvertDcheck 3 = false) ∧
    (∀ (msgs : List Frag) (qs : List Nat),
      runQueriesDchecksOk msgs PositionConverter.init qs = true
        ↔ List.Chain' (· ≤ ·) qs) := by
  constructor
  · intro msgs
    rfl
  · intro msgs qs
    rw [runQueriesDchecksOk_iff]
    exact chain_zero_iff_chain'

theorem monotonic_query_contract_witness :
    (PositionConverter.init.Convert [[1, 2], [3]] 5).2.ConvertDcheck 3
        = false ∧
      runQueriesDchecksOk [[1, 2], [3]] PositionConverter.init [1, 2, 2, 5]
        = true ∧
      runQueriesDchecksOk [[1, 2], [3]] PositionConverter.init [5, 3]
        = false :=
  ⟨monotonic_query_contract.1 [[1, 2], [3]],
    (monotonic_query_contract.2 [[1, 2], [3]] [1, 2, 2, 5]).mpr
      (by simp [List.chain'_cons]),
    by decide⟩

/-- C10: `Reset` zeroes the cursor (`curr_seq_`, `size_`) but leaves
`last_query_pos_` untouched, so after a `Reset` the defensive monotonicity
check still compares against the position queried last before the
`Reset`. -/
theorem reset_keeps_last_query_pos :
    ∀ c : PositionConverter,
      c.Reset.curr_seq_ = 0 ∧ c.Reset.size_ = 0 ∧
      c.Reset.last_query_pos_ = c.last_query_pos_ ∧
      (∀ pos, c.Reset.ConvertDcheck pos = c.ConvertDcheck pos) ∧
      (∀ (msgs : List Frag) (qs : List Nat) (q pos : Nat),
        (runQueriesAux msgs c (qs ++ [q])).2.Reset.ConvertDcheck pos
          = decide (q ≤ pos)) := by
  intro c
  refine ⟨rfl, rfl, rfl, fun pos => rfl, ?_⟩
  intro msgs qs q pos
  simp only [PositionConverter.ConvertDcheck, PositionConverter.Reset,
    runQueriesAux_last msgs qs c q]

/-! ## `EventParser` basic behavior -/

/-- C7: `Append` always succeeds (it is a total function), performs no
parsing, pushes the fragment's content and timestamp at the end of the
accumulated sequences, and grows the tracked total size by exactly the
fragment's byte length; `EventParser` has no other state. -/
theorem append_always_succeeds :
    ∀ (p : EventParser) (event : SocketDataEvent),
      (p.Append event).msgs_ = p.msgs_ ++ [event.msg] ∧
      (p.Append event).ts_nses_
        = p.ts_nses_ ++ [event.attr.return_timestamp_ns] ∧
      (p.Append event).msgs_size_ = p.msgs_size_ + event.msg.length :=
  fun _ _ => ⟨rfl, rfl, rfl⟩

/-- C3: every `ParseFrames` call, whatever the terminal status, returns the
parser with all accumulated fragments, timestamps and the cached length
cleared, so a subsequent `Append` followed by `ParseFrames` behaves exactly
as on a freshly constructed parser. -/
theorem parse_clears_state {α : Type} :
    ∀ (p : EventParser) (P : Protocol α) (type : MessageType)
      (frames : List (Frame α)) (resync : Bool),
      (p.ParseFrames P type frames resync).2.2 = EventParser.init ∧
      (p.ParseFrames P type frames resync).2.2.msgs_ = [] ∧
      (p.ParseFrames P type frames resync).2.2.ts_nses_ = [] ∧
      (p.ParseFrames P type frames resync).2.2.msgs_size_ = 0 ∧
      ∀ {β : Type} (ev : SocketDataEvent) (P2 : Protocol β)
        (type2 : MessageType) (frames2 : List (Frame β)) (resync2 : Bool),
        ((p.ParseFrames P type frames resync).2.2.Append ev).ParseFrames
            P2 type2 frames2 resync2
          = (EventParser.init.Append ev).ParseFrames P2 type2 frames2 resync2 :=
  fun _ _ _ _ _ => ⟨rfl, rfl, rfl, rfl, fun _ _ _ _ _ => rfl⟩

/-- C4: when the boundary search (invoked from offset 1) reports not-found,
`ParseFrames` with `resync = true` returns exactly the same result as with
`resync = false`. -/
theorem resync_fallback_equiv {α : Type} (p : EventParser) (P : Protocol α)
    (type : MessageType) (frames : List (Frame α))
    (h : P.FindFrameBoundary type p.Combine 1 = none) :
    p.ParseFrames P type frames true = p.ParseFrames P type frames false := by
  have hs : resolveStartPos P type p.Combine true
      = resolveStartPos P type p.Combine false := by
    simp [resolveStartPos, h]
  simp only [EventParser.ParseFrames]
  rw [hs]

theorem resync_fallback_equiv_witness :
    noBoundaryProto.FindFrameBoundary MessageType.kRequest
        (EventParser.init.Append sampleEvent1).Combine 1 = none ∧
      (EventParser.init.Append sampleEvent1).ParseFrames noBoundaryProto
          MessageType.kRequest [] true
        = (EventParser.init.Append sampleEvent1).ParseFrames noBoundaryProto
            MessageType.kRequest [] false :=
  ⟨rfl, resync_fallback_equiv (EventParser.init.Append sampleEvent1)
    noBoundaryProto MessageType.kRequest [] rfl⟩

/-! ## The combined working buffer -/

theorem foldl_append_flatten :
    ∀ (ls : List Frag) (acc : Frag),
      ls.foldl (fun r m => r ++ m) acc = acc ++ ls.flatten
  | [], acc => by simp
  | m :: ls, acc => by
    simp only [List.foldl_cons, List.flatten_cons, foldl_append_flatten ls,
      List.append_assoc]

theorem Combine_eq_flatten (p : EventParser) : p.Combine = p.msgs_.flatten := by
  simp [EventParser.Combine, foldl_append_flatten]

theorem appendAll_fields (evs : List SocketDataEvent) :
    (appendAll evs).msgs_ = evs.map (fun e => e.msg) ∧
      (appendAll evs).ts_nses_
        = evs.map (fun e => e.attr.return_timestamp_ns) ∧
      (appendAll evs).msgs_size_ = sumLens (evs.map (fun e => e.msg)) := by
  have key : ∀ (evs : List SocketDataEvent) (p : EventParser),
      (evs.foldl (fun p e => p.Append e) p).msgs_
          = p.msgs_ ++ evs.map (fun e => e.msg) ∧
        (evs.foldl (fun p e => p.Append e) p).ts_nses_
          = p.ts_nses_ ++ evs.map (fun e => e.attr.return_timestamp_ns) ∧
        (evs.foldl (fun p e => p.Append e) p).msgs_size_
          = p.msgs_size_ + sumLens (evs.map (fun e => e.msg)) := by
    intro evs
    induction evs with
    | nil => intro p; simp [sumLens]
    | cons e evs ih =>
      intro p
      obtain ⟨h1, h2, h3⟩ := ih (p.Append e)
      refine ⟨?_, ?_, ?_⟩
      · rw [List.foldl_cons, h1]
        simp [EventParser.Append]
      · rw [List.foldl_cons, h2]
        simp [EventParser.Append]
      · rw [List.foldl_cons, h3]
        simp only [EventParser.Append, List.map_cons, sumLens_cons]
        omega
  have h := key evs EventParser.init
  simpa [appendAll, EventParser.init] using h

/-- C9: the working buffer built by `Combine` at the start of a parse
cycle is exactly the byte-concatenation, in append order, of all fragments
appended since the last cycle, its length equals the tracked
`msgs_size_`, and the buffer handed to the per-protocol decode function is
that concatenation with the first `start_pos` bytes removed (exhibited
both through the returned state for an arbitrary protocol and through a
recording protocol that stores the buffer it receives, without resync and
with a resync boundary at an arbitrary `b`). -/
theorem combine_is_concatenation {α : Type} :
    ∀ (evs : List SocketDataEvent) (P : Protocol α) (type : MessageType)
      (frames : List (Frame α)) (resync : Bool),
      (appendAll evs).Combine = (evs.map (fun e => e.msg)).flatten ∧
      (appendAll evs).Combine.length = (appendAll evs).msgs_size_ ∧
      ((appendAll evs).ParseFrames P type frames resync).1.state
        = (P.ParseFrames type
            ((evs.map (fun e => e.msg)).flatten.drop
              (resolveStartPos P type ((evs.map (fun e => e.msg)).flatten)
                resync))
            frames).2.state ∧
      ((appendAll evs).ParseFrames
          (⟨fun _ _ _ => none,
            fun _ bf fs =>
              (fs ++ [⟨bf, 0⟩], ⟨[], 0, ParseState.kNeedsMoreData⟩)⟩ :
            Protocol Frag)
          type [] false).2.1
        = [⟨(evs.map (fun e => e.msg)).flatten, 0⟩] ∧
      ∀ b : Nat,
        ((appendAll evs).ParseFrames
            (⟨fun _ _ _ => some b,
              fun _ bf fs =>
                (fs ++ [⟨bf, 0⟩], ⟨[], 0, ParseState.kNeedsMoreData⟩)⟩ :
              Protocol Frag)
            type [] true).2.1
          = [⟨(evs.map (fun e => e.msg)).flatten.drop b, 0⟩] := by
  intro evs P type frames resync
  obtain ⟨hmsgs, hts, hsize⟩ := appendAll_fields evs
  have hcomb : (appendAll evs).Combine = (evs.map (fun e => e.msg)).flatten := by
    rw [Combine_eq_flatten, hmsgs]
  refine ⟨hcomb, ?_, ?_, ?_, ?_⟩
  · rw [hcomb, hsize, List.length_flatten]
    simp [sumLens]
  · show (P.ParseFrames type
        ((appendAll evs).Combine.drop
          (resolveStartPos P type (appendAll evs).Combine resync))
        frames).2.state = _
    rw [hcomb]
  · simp only [EventParser.ParseFrames, resolveStartPos, if_false,
      List.drop_zero, stampFrames, hcomb]
    simp
  · intro b
    simp only [EventParser.ParseFrames, resolveStartPos, if_true,
      stampFrames, hcomb]
    simp

/-! ## Timestamp stamping -/

theorem setTimestamp_nil {α : Type} (ts : Nat) :
    ∀ n : Nat, setTimestamp ts n ([] : List (Frame α)) = []
  | 0 => rfl
  | _ + 1 => rfl

theorem setTimestamp_length {α : Type} (ts : Nat) :
    ∀ (n : Nat) (l : List (Frame α)), (setTimestamp ts n l).length = l.length
  | n, [] => by rw [setTimestamp_nil]
  | 0, _ :: _ => rfl
  | n + 1, _ :: rest => by
    show (setTimestamp ts n rest).length + 1 = rest.length + 1
    rw [setTimestamp_length ts n rest]

theorem setTimestamp_map_data {α : Type} (ts : Nat) :
    ∀ (n : Nat) (l : List (Frame α)),
      (setTimestamp ts n l).map Frame.data = l.map Frame.data
  | n, [] => by rw [setTimestamp_nil]
  | 0, _ :: _ => rfl
  | n + 1, f :: rest => by
    show f.data :: (setTimestamp ts n rest).map Frame.data
      = f.data :: rest.map Frame.data
    rw [setTimestamp_map_data ts n rest]

theorem setTimestamp_take {α : Type} (ts : Nat) :
    ∀ (n k : Nat) (l : List (Frame α)), k ≤ n →
      (setTimestamp ts n l).take k = l.take k
  | n, k, [], _ => by rw [setTimestamp_nil]
  | 0, k, _ :: _, h => by
    have hk : k = 0 := Nat.le_zero.mp h
    subst hk
    rfl
  | n + 1, k, f :: rest, h => by
    cases k with
    | zero => rfl
    | succ k =>
      show f :: (setTimestamp ts n rest).take k = f :: rest.take k
      rw [setTimestamp_take ts n k rest (by omega)]

theorem setTimestamp_cons_zero {α : Type} (ts : Nat) (f : Frame α)
    (rest : List (Frame α)) :
    setTimestamp ts 0 (f :: rest) = { f with timestamp_ns := ts } :: rest := rfl

theorem setTimestamp_cons_succ {α : Type} (ts n : Nat) (f : Frame α)
    (rest : List (Frame α)) :
    setTimestamp ts (n + 1) (f :: rest) = f :: setTimestamp ts n rest := rfl

theorem setTimestamp_getElem?_ne {α : Type} (ts : Nat) :
    ∀ (n m : Nat) (l : List (Frame α)), m ≠ n →
      (setTimestamp ts n l)[m]? = l[m]?
  | n, m, [], _ => by rw [setTimestamp_nil]
  | 0, m, f :: rest, h => by
    cases m with
    | zero => exact absurd rfl h
    | succ m =>
      rw [setTimestamp_cons_zero]
      simp only [List.getElem?_cons_succ]
  | n + 1, m, f :: rest, h => by
    rw [setTimestamp_cons_succ]
    cases m with
    | zero => simp only [List.getElem?_cons_zero]
    | succ m =>
      simp only [List.getElem?_cons_succ]
      exact setTimestamp_getElem?_ne ts n m rest (by omega)

theorem setTimestamp_getElem?_self {α : Type} (ts : Nat) :
    ∀ (n : Nat) (l : List (Frame α)) (f : Frame α), l[n]? = some f →
      (setTimestamp ts n l)[n]? = some { f with timestamp_ns := ts }
  | _, [], _, h => by simp at h
  | 0, g :: rest, f, h => by
    simp only [List.getElem?_cons_zero, Option.some.injEq] at h
    subst h
    rw [setTimestamp_cons_zero]
    simp only [List.getElem?_cons_zero]
  | n + 1, g :: rest, f, h => by
    simp only [List.getElem?_cons_succ] at h
    rw [setTimestamp_cons_succ]
    simp only [List.getElem?_cons_succ]
    exact setTimestamp_getElem?_self ts n rest f h

theorem stampFrames_length {α : Type} (msgs : List Frag) (ts_nses : List Nat)
    (prev_size start_pos : Nat) :
    ∀ (sp : List Nat) (i : Nat) (conv : PositionConverter)
      (frames : List (Frame α)),
      (stampFrames msgs ts_nses prev_size start_pos sp i conv frames).2.1.length
        = frames.length
  | [], _, _, _ => rfl
  | s :: sp, i, conv, frames => by
    simp only [stampFrames]
    rw [stampFrames_length msgs ts_nses prev_size start_pos sp (i + 1)]
    exact setTimestamp_length _ _ _

theorem stampFrames_positions_length {α : Type} (msgs : List Frag)
    (ts_nses : List Nat) (prev_size start_pos : Nat) :
    ∀ (sp : List Nat) (i : Nat) (conv : PositionConverter)
      (frames : List (Frame α)),
      (stampFrames msgs ts_nses prev_size start_pos sp i conv frames).1.length
        = sp.length
  | [], _, _, _ => rfl
  | s :: sp, i, conv, frames => by
    simp only [stampFrames, List.length_cons]
    rw [stampFrames_positions_length msgs ts_nses prev_size start_pos sp (i + 1)]

theorem stampFrames_map_data {α : Type} (msgs : List Frag) (ts_nses : List Nat)
    (prev_size start_pos : Nat) :
    ∀ (sp : List Nat) (i : Nat) (conv : PositionConverter)
      (frames : List (Frame α)),
      (stampFrames msgs ts_nses prev_size start_pos sp i conv frames).2.1.map
          Frame.data
        = frames.map Frame.data
  | [], _, _, _ => rfl
  | s :: sp, i, conv, frames => by
    simp only [stampFrames]
    rw [stampFrames_map_data msgs ts_nses prev_size start_pos sp (i + 1)]
    exact setTimestamp_map_data _ _ _

theorem stampFrames_take {α : Type} (msgs : List Frag) (ts_nses : List Nat)
    (prev_size start_pos : Nat) :
    ∀ (sp : List Nat) (i : Nat) (conv : PositionConverter)
      (frames : List (Frame α)) (k : Nat), k ≤ prev_size + i →
      (stampFrames msgs ts_nses prev_size start_pos sp i conv frames).2.1.take k
        = frames.take k
  | [], _, _, _, _, _ => rfl
  | s :: sp, i, conv, frames, k, hk => by
    simp only [stampFrames]
    rw [stampFrames_take msgs ts_nses prev_size start_pos sp (i + 1) _ _ k
      (by omega)]
    exact setTimestamp_take _ _ _ _ hk

theorem stampFrames_getElem?_lt {α : Type} (msgs : List Frag)
    (ts_nses : List Nat) (prev_size start_pos : Nat) :
    ∀ (sp : List Nat) (i : Nat) (conv : PositionConverter)
      (frames : List (Frame α)) (m : Nat), m < prev_size + i →
      (stampFrames msgs ts_nses prev_size start_pos sp i conv frames).2.1[m]?
        = frames[m]?
  | [], _, _, _, _, _ => rfl
  | s :: sp, i, conv, frames, m, hm => by
    simp only [stampFrames]
    rw [stampFrames_getElem?_lt msgs ts_nses prev_size start_pos sp (i + 1)
      _ _ m (by omega)]
    exact setTimestamp_getElem?_ne _ _ _ _ (by omega)

/-- C8: assuming the protocol decode only appends (the caller's prefix of
the frame container is returned unchanged) and reports exactly one start
position per appended frame, `EventParser::ParseFrames` leaves all
pre-existing entries untouched, keeps every newly decoded frame after them
in adapter order (their `data` payloads unchanged, only timestamps are
stamped), and reports exactly one `BufferPosition` per newly appended
frame. -/
theorem parse_frames_appends {α : Type} (p : EventParser) (P : Protocol α)
    (type : MessageType) (frames : List (Frame α)) (resync : Bool)
    (happ : (P.ParseFrames type
        (p.Combine.drop (resolveStartPos P type p.Combine resync))
        frames).1.take frames.length = frames)
    (hcount : (P.ParseFrames type
        (p.Combine.drop (resolveStartPos P type p.Combine resync))
        frames).1.length
      = frames.length
        + (P.ParseFrames type
            (p.Combine.drop (resolveStartPos P type p.Combine resync))
            frames).2.start_positions.length) :
    (p.ParseFrames P type frames resync).2.1.take frames.length = frames ∧
      (p.ParseFrames P type frames resync).1.start_positions.length
        = (P.ParseFrames type
            (p.Combine.drop (resolveStartPos P type p.Combine resync))
            frames).2.start_positions.length ∧
      (p.ParseFrames P type frames resync).2.1.length
        = frames.length
          + (p.ParseFrames P type frames resync).1.start_positions.length ∧
      ((p.ParseFrames P type frames resync).2.1.drop frames.length).map
          Frame.data
        = ((P.ParseFrames type
            (p.Combine.drop (resolveStartPos P type p.Combine resync))
            frames).1.drop frames.length).map Frame.data := by
  simp only [EventParser.ParseFrames]
  refine ⟨?_, ?_, ?_, ?_⟩
  · rw [stampFrames_take]
    · exact happ
    · omega
  · rw [stampFrames_positions_length]
  · rw [stampFrames_length, stampFrames_positions_length, hcount]
  · rw [List.map_drop, stampFrames_map_data, List.map_drop]

theorem parse_frames_appends_witness :
    (noBoundaryProto.ParseFrames MessageType.kRequest
        ((EventParser.init.Append sampleEvent1).Combine.drop
          (resolveStartPos noBoundaryProto MessageType.kRequest
            (EventParser.init.Append sampleEvent1).Combine false))
        [⟨9, 50⟩]).1.take 1 = [⟨9, 50⟩] ∧
      (noBoundaryProto.ParseFrames MessageType.kRequest
        ((EventParser.init.Append sampleEvent1).Combine.drop
          (resolveStartPos noBoundaryProto MessageType.kRequest
            (EventParser.init.Append sampleEvent1).Combine false))
        [⟨9, 50⟩]).1.length
      = 1 + (noBoundaryProto.ParseFrames MessageType.kRequest
          ((EventParser.init.Append sampleEvent1).Combine.drop
            (resolveStartPos noBoundaryProto MessageType.kRequest
              (EventParser.init.Append sampleEvent1).Combine false))
          [⟨9, 50⟩]).2.start_positions.length ∧
      ((EventParser.init.Append sampleEvent1).ParseFrames noBoundaryProto
          MessageType.kRequest [⟨9, 50⟩] false).2.1.take 1 = [⟨9, 50⟩] ∧
      (((EventParser.init.Append sampleEvent1).ParseFrames noBoundaryProto
          MessageType.kRequest [⟨9, 50⟩] false).2.1.drop 1).map Frame.data
        = ((noBoundaryProto.ParseFrames MessageType.kRequest
            ((EventParser.init.Append sampleEvent1).Combine.drop
              (resolveStartPos noBoundaryProto MessageType.kRequest
                (EventParser.init.Append sampleEvent1).Combine false))
            [⟨9, 50⟩]).1.drop 1).map Frame.data := by
  have h := parse_frames_appends (EventParser.init.Append sampleEvent1)
    noBoundaryProto MessageType.kRequest [⟨9, 50⟩] false (by decide) (by decide)
  exact ⟨by decide, by decide, h.1, h.2.2.2⟩

theorem stampFrames_spec {α : Type} (msgs : List Frag) (ts_nses : List Nat)
    (prev_size start_pos : Nat) :
    ∀ (sp : List Nat) (i : Nat) (conv : PositionConverter)
      (frames : List (Frame α)),
      ConvStateOk msgs conv →
      List.Chain (· ≤ ·) conv.last_query_pos_
        (sp.map (fun s => start_pos + s)) →
      (∀ s ∈ sp, start_pos + s < sumLens msgs) →
      frames.length = prev_size + i + sp.length →
      List.Forall₂
        (fun bp s => sumTake msgs bp.seq_num + bp.offset = start_pos + s ∧
          bp.seq_num < msgs.length ∧
          bp.offset < (msgs.getD bp.seq_num []).length)
        (stampFrames msgs ts_nses prev_size start_pos sp i conv frames).1 sp ∧
      List.Forall₂
        (fun (bp : BufferPosition) (f : Frame α) =>
          f.timestamp_ns = ts_nses.getD bp.seq_num 0)
        (stampFrames msgs ts_nses prev_size start_pos sp i conv frames).1
        ((stampFrames msgs ts_nses prev_size start_pos sp i
            conv frames).2.1.drop (prev_size + i))
  | [], i, conv, frames, _, _, _, hlen => by
    constructor
    · exact List.Forall₂.nil
    · show List.Forall₂ _ [] (frames.drop (prev_size + i))
      have hpi : prev_size + i = frames.length := by
        simp only [List.length_nil] at hlen
        omega
      rw [hpi, List.drop_length]
      exact List.Forall₂.nil
  | s :: sp, i, conv, frames, hok, hchain, hbound, hlen => by
    rw [List.map_cons] at hchain
    cases hchain with
    | cons hfirst hchain =>
      obtain ⟨h1, h2, h3, hok2⟩ :=
        Convert_lt msgs conv (start_pos + s) hok hfirst
          (hbound s (by simp))
      have hchain2 : List.Chain (· ≤ ·)
          ((conv.Convert msgs (start_pos + s)).2.last_query_pos_)
          (sp.map (fun x => start_pos + x)) := by
        rw [Convert_last]
        exact hchain
      have hidx : prev_size + i < frames.length := by
        simp only [List.length_cons] at hlen
        omega
      have hlen2 : (setTimestamp
          (ts_nses.getD (conv.Convert msgs (start_pos + s)).1.seq_num 0)
          (prev_size + i) frames).length = prev_size + (i + 1) + sp.length := by
        rw [setTimestamp_length]
        simp only [List.length_cons] at hlen
        omega
      obtain ⟨ihA, ihB⟩ := stampFrames_spec msgs ts_nses prev_size start_pos
        sp (i + 1) (conv.Convert msgs (start_pos + s)).2
        (setTimestamp
          (ts_nses.getD (conv.Convert msgs (start_pos + s)).1.seq_num 0)
          (prev_size + i) frames)
        hok2 hchain2 (fun x hx => hbound x (by simp [hx])) hlen2
      constructor
      · show List.Forall₂ _
          ((conv.Convert msgs (start_pos + s)).1 ::
            (stampFrames msgs ts_nses prev_size start_pos sp (i + 1) _ _).1)
          (s :: sp)
        exact List.Forall₂.cons ⟨h1, h2, h3⟩ ihA
      · have hf0 : frames[prev_size + i]? = some (frames.get ⟨prev_size + i, hidx⟩) := by
          rw [List.getElem?_eq_getElem hidx]
          rfl
        have hset := setTimestamp_getElem?_self
          (ts_nses.getD (conv.Convert msgs (start_pos + s)).1.seq_num 0)
          (prev_size + i) frames (frames.get ⟨prev_size + i, hidx⟩) hf0
        have hpres := stampFrames_getElem?_lt msgs ts_nses prev_size start_pos
          sp (i + 1) (conv.Convert msgs (start_pos + s)).2
          (setTimestamp
            (ts_nses.getD (conv.Convert msgs (start_pos + s)).1.seq_num 0)
            (prev_size + i) frames)
          (prev_size + i) (by omega)
        have hres : (stampFrames msgs ts_nses prev_size start_pos sp (i + 1)
            (conv.Convert msgs (start_pos + s)).2
            (setTimestamp
              (ts_nses.getD (conv.Convert msgs (start_pos + s)).1.seq_num 0)
              (prev_size + i) frames)).2.1[prev_size + i]?
            = some { frames.get ⟨prev_size + i, hidx⟩ with
                timestamp_ns :=
                  ts_nses.getD (conv.Convert msgs (start_pos + s)).1.seq_num 0 } := by
          rw [hpres, hset]
        have hidx2 : prev_size + i
            < (stampFrames msgs ts_nses prev_size start_pos sp (i + 1)
              (conv.Convert msgs (start_pos + s)).2
              (setTimestamp
                (ts_nses.getD (conv.Convert msgs (start_pos + s)).1.seq_num 0)
                (prev_size + i) frames)).2.1.length := by
          rw [stampFrames_length, setTimestamp_length]
          omega
        have hdrop := List.drop_eq_getElem_cons hidx2
        have hval : (stampFrames msgs ts_nses prev_size start_pos sp (i + 1)
            (conv.Convert msgs (start_pos + s)).2
            (setTimestamp
              (ts_nses.getD (conv.Convert msgs (start_pos + s)).1.seq_num 0)
              (prev_size + i) frames)).2.1[prev_size + i]
            = { frames.get ⟨prev_size + i, hidx⟩ with
                timestamp_ns :=
                  ts_nses.getD (conv.Convert msgs (start_pos + s)).1.seq_num 0 } := by
          have := (List.getElem?_eq_getElem hidx2).symm.trans hres
          exact Option.some.inj this
        show List.Forall₂ _
          ((conv.Convert msgs (start_pos + s)).1 ::
            (stampFrames msgs ts_nses prev_size start_pos sp (i + 1) _ _).1)
          ((stampFrames msgs ts_nses prev_size start_pos sp (i + 1) _ _).2.1.drop
            (prev_size + i))
        rw [hdrop, hval]
        exact List.Forall₂.cons rfl ihB

/-- C2: each newly decoded frame gets the capture timestamp of the
fragment containing its first byte: writing `start` for the resync start
offset and `s` for the adapter-reported start position, the converted
`BufferPosition` `(seq, off)` satisfies `sumTake msgs seq + off = start + s`
with `off` inside fragment `seq`, and the frame's `timestamp_ns` is set to
`ts_nses_[seq]` — provided the adapter reports non-decreasing in-range
start positions and appends one frame per reported position.  In
particular, for fragments of 10 bytes at ts=100 and 10 bytes at ts=200 and
a frame reported at stream offset 12, the emitted frame's timestamp is 200
and its position is `(1, 2)`. -/
theorem timestamp_attribution {α : Type} (p : EventParser) (P : Protocol α)
    (type : MessageType) (frames : List (Frame α)) (resync : Bool)
    (hmono : List.Chain' (· ≤ ·)
      (P.ParseFrames type
        (p.Combine.drop (resolveStartPos P type p.Combine resync))
        frames).2.start_positions)
    (hbound : ∀ s ∈ (P.ParseFrames type
        (p.Combine.drop (resolveStartPos P type p.Combine resync))
        frames).2.start_positions,
      resolveStartPos P type p.Combine resync + s < sumLens p.msgs_)
    (hcount : (P.ParseFrames type
        (p.Combine.drop (resolveStartPos P type p.Combine resync))
        frames).1.length
      = frames.length
        + (P.ParseFrames type
            (p.Combine.drop (resolveStartPos P type p.Combine resync))
            frames).2.start_positions.length) :
    List.Forall₂
      (fun bp s => sumTake p.msgs_ bp.seq_num + bp.offset
          = resolveStartPos P type p.Combine resync + s ∧
        bp.seq_num < p.msgs_.length ∧
        bp.offset < (p.msgs_.getD bp.seq_num []).length)
      (p.ParseFrames P type frames resync).1.start_positions
      (P.ParseFrames type
        (p.Combine.drop (resolveStartPos P type p.Combine resync))
        frames).2.start_positions ∧
    List.Forall₂
      (fun (bp : BufferPosition) (f : Frame α) =>
        f.timestamp_ns = p.ts_nses_.getD bp.seq_num 0)
      (p.ParseFrames P type frames resync).1.start_positions
      ((p.ParseFrames P type frames resync).2.1.drop frames.length) ∧
    (((EventParser.init.Append ⟨⟨100⟩, [0, 0, 0, 0, 0, 0, 0, 0, 0, 0]⟩).Append
        ⟨⟨200⟩, [1, 1, 1, 1, 1, 1, 1, 1, 1, 1]⟩).ParseFrames
        (⟨fun _ _ _ => none,
          fun _ bf fs =>
            (fs ++ [⟨0, 0⟩], ⟨[12], bf.length, ParseState.kSuccess⟩)⟩ :
          Protocol Nat)
        MessageType.kRequest [] false).1.start_positions = [⟨1, 2⟩] ∧
    (((EventParser.init.Append ⟨⟨100⟩, [0, 0, 0, 0, 0, 0, 0, 0, 0, 0]⟩).Append
        ⟨⟨200⟩, [1, 1, 1, 1, 1, 1, 1, 1, 1, 1]⟩).ParseFrames
        (⟨fun _ _ _ => none,
          fun _ bf fs =>
            (fs ++ [⟨0, 0⟩], ⟨[12], bf.length, ParseState.kSuccess⟩)⟩ :
          Protocol Nat)
        MessageType.kRequest [] false).2.1 = [⟨0, 200⟩] := by
  have hmap : List.Chain' (· ≤ ·)
      ((P.ParseFrames type
        (p.Combine.drop (resolveStartPos P type p.Combine resync))
        frames).2.start_positions.map
          (fun s => resolveStartPos P type p.Combine resync + s)) := by
    have h0 := List.chain'_map_of_chain'
      (fun s => resolveStartPos P type p.Combine resync + s)
      (fun a b h => Nat.add_le_add_left h _) hmono
    exact h0
  have hchain := chain_zero_of_chain' hmap
  have hspec := stampFrames_spec p.msgs_ p.ts_nses_ frames.length
    (resolveStartPos P type p.Combine resync)
    (P.ParseFrames type
      (p.Combine.drop (resolveStartPos P type p.Combine resync))
      frames).2.start_positions 0 PositionConverter.init
    (P.ParseFrames type
      (p.Combine.drop (resolveStartPos P type p.Combine resync))
      frames).1
    (ConvStateOk_init _) hchain hbound hcount
  refine ⟨?_, ?_, by decide, by decide⟩
  · exact hspec.1
  · exact hspec.2

theorem timestamp_attribution_witness :
    List.Chain' (· ≤ ·)
      (exampleProto12.ParseFrames MessageType.kRequest
        (exampleParser2.Combine.drop
          (resolveStartPos exampleProto12 MessageType.kRequest
            exampleParser2.Combine false))
        []).2.start_positions ∧
    (∀ s ∈ (exampleProto12.ParseFrames MessageType.kRequest
        (exampleParser2.Combine.drop
          (resolveStartPos exampleProto12 MessageType.kRequest
            exampleParser2.Combine false))
        []).2.start_positions,
      resolveStartPos exampleProto12 MessageType.kRequest
          exampleParser2.Combine false + s
        < sumLens exampleParser2.msgs_) ∧
    List.Forall₂
      (fun bp s => sumTake exampleParser2.msgs_ bp.seq_num + bp.offset
          = resolveStartPos exampleProto12 MessageType.kRequest
              exampleParser2.Combine false + s ∧
        bp.seq_num < exampleParser2.msgs_.length ∧
        bp.offset < (exampleParser2.msgs_.getD bp.seq_num []).length)
      (exampleParser2.ParseFrames exampleProto12 MessageType.kRequest []
        false).1.start_positions
      (exampleProto12.ParseFrames MessageType.kRequest
        (exampleParser2.Combine.drop
          (resolveStartPos exampleProto12 MessageType.kRequest
            exampleParser2.Combine false))
        []).2.start_positions ∧
    List.Forall₂
      (fun (bp : BufferPosition) (f : Frame Nat) =>
        f.timestamp_ns = exampleParser2.ts_nses_.getD bp.seq_num 0)
      (exampleParser2.ParseFrames exampleProto12 MessageType.kRequest []
        false).1.start_positions
      ((exampleParser2.ParseFrames exampleProto12 MessageType.kRequest []
        false).2.1.drop (List.length ([] : List (Frame Nat)))) := by
  have h := timestamp_attribution exampleParser2 exampleProto12
    MessageType.kRequest [] false
    (by show List.Chain' (· ≤ ·) [12]; simp)
    (by decide) (by decide)
  exact ⟨by show List.Chain' (· ≤ ·) [12]; simp, by decide, h.1, h.2.1⟩

end stirling
